import Mathlib

/-!
Verification of the multimedia3 repository.

Part 1 embeds the chart visualizer (`src/app.js`): coordinate mapping,
moving-average smoothing, the FIFO data buffer and nearest-point
hit-testing.  Numbers are modelled as exact rationals.

Part 2 embeds the word-guessing core (guess evaluator and game state
machine).  Its code is not under `src/` (only the chart script is), so
those definitions are modelled from the spec, as marked in their doc
comments.
-/

/-- Canvas width `canvas.width` (900 per the source comment at `src/app.js:36`). -/
def WIDTH : ℚ := 900

/-- Canvas height `canvas.height` (600 per the source comment at `src/app.js:37`). -/
def HEIGHT : ℚ := 600

/-- Horizontal spacing of data points, `src/app.js:42`. -/
def STEP_X : ℚ := 20

/-- Buffer capacity `MAX_POINTS = Math.floor(WIDTH / STEP_X) + 1`, `src/app.js:45`. -/
def MAX_POINTS : ℕ := (WIDTH / STEP_X).floor.toNat + 1

/-- Clamp `clamp(n, a, b) = Math.max(a, Math.min(b, n))`, `src/app.js:95`. -/
def clamp (n a b : ℚ) : ℚ := max a (min b n)

/-- Value-to-canvas mapping `normalizeToCanvas`, `src/app.js:103-108`.  The globals `minVal`,
`maxVal` are passed explicitly.  `(maxVal - minVal || 1)` is rendered as
an `if` on the difference being zero. -/
def normalizeToCanvas (minVal maxVal value : ℚ) : ℚ :=
  let v := clamp value minVal maxVal
  let d := maxVal - minVal
  let t := (v - minVal) / (if d = 0 then 1 else d)
  HEIGHT - t * HEIGHT

/-- Canvas-to-value mapping `canvasToValue`, `src/app.js:110-114`. -/
def canvasToValue (minVal maxVal y : ℚ) : ℚ :=
  let t := 1 - y / HEIGHT
  minVal + t * (maxVal - minVal)

/-- Valid index set for `movingAverage`'s inner loop: the window
`[i - floor(w/2), i + floor(w/2)]` intersected with `[0, n)`,
`src/app.js:122-123`. -/
def maWindow (n w i : ℕ) : List ℤ :=
  ((List.range (2 * (w / 2) + 1)).map
      (fun k : ℕ => (i : ℤ) + (k : ℤ) - ((w / 2 : ℕ) : ℤ))).filter
    (fun j => 0 ≤ j ∧ j < (n : ℤ))

/-- Smoothing function `movingAverage(arr, windowSize)`, `src/app.js:116-128`.  For
`windowSize <= 1` the source returns `arr.slice()`, a copy equal to
`arr`.  `(count || 1)` is rendered as an `if` on `count = 0`. -/
def movingAverage (arr : List ℚ) (windowSize : ℕ) : List ℚ :=
  if windowSize ≤ 1 then arr
  else
    (List.range arr.length).map (fun i =>
      let js := maWindow arr.length windowSize i
      let sum := (js.map (fun j => arr.getD j.toNat 0)).sum
      let count := js.length
      sum / (if count = 0 then 1 else (count : ℚ)))

/-- One series' buffer update inside `pushNewDataPoint`,
`src/app.js:162-163`: push the new value, then shift the oldest out
when the length exceeds `MAX_POINTS`.  The randomly generated value is
passed in explicitly. -/
def pushPoint (data : List ℚ) (val : ℚ) : List ℚ :=
  let d := data ++ [val]
  if MAX_POINTS < d.length then d.tail else d

/-- Seeding `seedInitialData` for one series, `src/app.js:167-170`: reset the
buffer to `[]` then run `pushNewDataPoint` `MAX_POINTS` times; `gen i`
is the value produced on iteration `i`. -/
def seedInitialData (gen : ℕ → ℚ) : List ℚ :=
  (List.range MAX_POINTS).foldl (fun d i => pushPoint d (gen i)) []

/-- A drawn point as built in `getSeriesDrawPoints`, `src/app.js:229-238`. -/
structure DrawPoint where
  x : ℚ
  y : ℚ
  value : ℚ
  deriving DecidableEq, Repr

/-- Drawing points `getSeriesDrawPoints(values)`, `src/app.js:229-238`: optionally
smooth with window 5, then map index `i` to
`{x = i * STEP_X, y = normalizeToCanvas(v), value = values[i]}`. -/
def getSeriesDrawPoints (smooth : Bool) (minVal maxVal : ℚ) (values : List ℚ) :
    List DrawPoint :=
  let ys := if smooth then movingAverage values 5 else values
  ys.enum.map (fun p =>
    { x := (p.1 : ℚ) * STEP_X
      y := normalizeToCanvas minVal maxVal p.2
      value := values.getD p.1 0 })

/-- The record built for the best hit-test candidate,
`src/app.js:330-339`.  `dist2` stores the squared Euclidean distance;
the source compares `Math.sqrt` values, and square root is strictly
monotone on nonnegative reals, so every comparison agrees. -/
structure Best where
  dist2 : ℚ
  seriesName : ℕ
  seriesIndex : ℕ
  x : ℚ
  y : ℚ
  value : ℚ
  pointIndex : ℕ
  deriving DecidableEq, Repr

/-- Squared Euclidean distance from the mouse to a drawn point,
`src/app.js:326-328`. -/
def pointDist2 (mouseX mouseY : ℚ) (p : DrawPoint) : ℚ :=
  (p.x - mouseX) * (p.x - mouseX) + (p.y - mouseY) * (p.y - mouseY)

/-- The body of the inner `candidates.forEach` in `getNearestPoint`,
`src/app.js:323-341`: skip out-of-range indices, otherwise compare the
candidate's distance against the current best. -/
def considerCandidate (mouseX mouseY : ℚ) (sIdx : ℕ) (values : List ℚ)
    (pts : List DrawPoint) (best : Option Best) (i : ℤ) : Option Best :=
  if i < 0 ∨ (pts.length : ℤ) ≤ i then best
  else
    let p := pts.getD i.toNat ⟨0, 0, 0⟩
    let d2 := pointDist2 mouseX mouseY p
    let cand : Best :=
      { dist2 := d2, seriesName := sIdx, seriesIndex := sIdx,
        x := p.x, y := p.y, value := values.getD i.toNat 0,
        pointIndex := i.toNat }
    match best with
    | none => some cand
    | some b => if d2 < b.dist2 then some cand else some b

/-- Hit-testing `getNearestPoint(mouseX, mouseY)`, `src/app.js:313-345`: fold over
every series; for each, examine only the three candidate indices
`round(mouseX / STEP_X) - 1 .. + 1`.  The global `seriesList` is passed
as the list of per-series data arrays. -/
def getNearestPoint (smooth : Bool) (minVal maxVal : ℚ)
    (seriesData : List (List ℚ)) (mouseX mouseY : ℚ) : Option Best :=
  seriesData.enum.foldl (fun best p =>
    let pts := getSeriesDrawPoints smooth minVal maxVal p.2
    let approx := round (mouseX / STEP_X)
    [approx - 1, approx, approx + 1].foldl
      (considerCandidate mouseX mouseY p.1 p.2 pts) best) none

/-- Modelled from the spec: `LetterMark`, §3 — per-position
classification of a guess against the secret.  The word-guessing
script itself is not under `src/`. -/
inductive LetterMark where
  | exact
  | present
  | absent
  deriving DecidableEq, Repr

/-- Number of occurrences of letter `c` in `l` (the multiset count of
spec §4.1 step 1). -/
def countOf (l : List Char) (c : Char) : ℕ := (l.filter (fun a => a = c)).length

/-- Number of positions where secret and guess agree and carry letter
`c` (the exact matches on `c` of spec §4.1 step 2). -/
def exactMatchesOn (secret guess : List Char) (c : Char) : ℕ :=
  ((secret.zip guess).filter (fun p => p.1 = p.2 ∧ p.1 = c)).length

/-- Modelled from the spec: the multiset of remaining counts after
pass 1 (spec §4.1 steps 1-2): for each letter, its count in the secret
minus the number of exact matches on that letter. -/
def remAfterExact (secret guess : List Char) (c : Char) : ℕ :=
  countOf secret c - exactMatchesOn secret guess c

/-- Decrement one letter's remaining count. -/
def decAt (rem : Char → ℕ) (g : Char) : Char → ℕ :=
  fun c => if c = g then rem c - 1 else rem c

/-- Modelled from the spec: pass 2 of `evaluate` (spec §4.1 step 3),
walking position pairs left to right.  Exact positions were marked in
pass 1 and their decrements are already folded into `rem`; each
remaining position is `present` if its letter still has remaining
count > 0 (decrementing it), else `absent`.  Each output entry keeps
its input pair for bookkeeping. -/
def evalGo (rem : Char → ℕ) : List (Char × Char) → List ((Char × Char) × LetterMark)
  | [] => []
  | (s, g) :: rest =>
    if s = g then ((s, g), LetterMark.exact) :: evalGo rem rest
    else if 0 < rem g then ((s, g), LetterMark.present) :: evalGo (decAt rem g) rest
    else ((s, g), LetterMark.absent) :: evalGo rem rest

/-- Modelled from the spec: `evaluate(secret, guess)` (spec §4.1), the
two-pass duplicate-letter scoring algorithm. -/
def evaluate (secret guess : List Char) : List LetterMark :=
  (evalGo (remAfterExact secret guess) (secret.zip guess)).map (fun e => e.2)

/-- Number of positions of the guess that carry letter `c` and
received mark `m`. -/
def marksOn (guess : List Char) (marks : List LetterMark) (c : Char)
    (m : LetterMark) : ℕ :=
  ((guess.zip marks).filter (fun p => p.1 = c ∧ p.2 = m)).length

/-- Modelled from the spec: game status, §3 / §4.2. -/
inductive Status where
  | inProgress
  | won
  | lost
  deriving DecidableEq, Repr

/-- Modelled from the spec: error kinds, §7. -/
inductive GameError where
  | InvalidLength
  | InvalidAlphabet
  | GameAlreadyOver
  deriving DecidableEq, Repr

/-- Modelled from the spec: `GameState`, §3. -/
structure GameState where
  secret : List Char
  attemptIndex : ℕ
  history : List (List Char × List LetterMark)
  status : Status
  deriving DecidableEq, Repr

/-- Modelled from the spec: normalization of a raw guess (spec §4.2):
trim surrounding whitespace, lowercase. -/
def normalizeGuess (raw : List Char) : List Char :=
  (((raw.dropWhile Char.isWhitespace).reverse.dropWhile Char.isWhitespace).reverse).map
    Char.toLower

/-- Modelled from the spec: `submitGuess(raw)` (spec §4.2 / §7): reject
when the game is over; normalize; validate length then alphabet with no
state change on failure; otherwise score the guess, append to history,
increment the attempt counter, and update the status (`Won` on an exact
guess, `Lost` when the attempt budget is exhausted). -/
def submitGuess (maxAttempts : ℕ) (st : GameState) (raw : List Char) :
    Except GameError GameState :=
  if st.status ≠ Status.inProgress then .error .GameAlreadyOver
  else
    let g := normalizeGuess raw
    if g.length ≠ st.secret.length then .error .InvalidLength
    else if ¬ g.all Char.isAlpha then .error .InvalidAlphabet
    else
      let marks := evaluate st.secret g
      let st' : GameState :=
        { secret := st.secret
          attemptIndex := st.attemptIndex + 1
          history := st.history ++ [(g, marks)]
          status := if g = st.secret then Status.won
                    else if st.attemptIndex + 1 = maxAttempts then Status.lost
                    else Status.inProgress }
      .ok st'

/-- A sequence of `submitGuess` calls, stopping at the first error. -/
def submitRun (maxAttempts : ℕ) (st : GameState) :
    List (List Char) → Except GameError GameState
  | [] => .ok st
  | r :: rs =>
    match submitGuess maxAttempts st r with
    | .ok st' => submitRun maxAttempts st' rs
    | .error e => .error e

/-- Claim C8: with distinct bounds and a value inside them, the
coordinate mappings are range-correct and mutually inverse:
`normalizeToCanvas` lands in `[0, HEIGHT]` and `canvasToValue` undoes
it exactly over rational arithmetic. -/
theorem chart_coordinate_roundtrip (minVal maxVal v : ℚ) (hne : minVal ≠ maxVal)
    (hlo : minVal ≤ v) (hhi : v ≤ maxVal) :
    0 ≤ normalizeToCanvas minVal maxVal v ∧
    normalizeToCanvas minVal maxVal v ≤ HEIGHT ∧
    canvasToValue minVal maxVal (normalizeToCanvas minVal maxVal v) = v := by
  have hlt : minVal < maxVal := lt_of_le_of_ne (hlo.trans hhi) hne
  have hd : maxVal - minVal ≠ 0 := sub_ne_zero.mpr (ne_of_gt hlt)
  have hdpos : (0 : ℚ) < maxVal - minVal := sub_pos.mpr hlt
  have hclamp : clamp v minVal maxVal = v := by
    simp only [clamp, min_eq_right hhi, max_eq_right hlo]
  simp only [normalizeToCanvas, canvasToValue, HEIGHT, hclamp, if_neg hd]
  set t : ℚ := (v - minVal) / (maxVal - minVal) with ht
  have ht0 : 0 ≤ t := div_nonneg (sub_nonneg.mpr hlo) hdpos.le
  have ht1 : t ≤ 1 := (div_le_one hdpos).mpr (sub_le_sub_right hhi minVal)
  refine ⟨by nlinarith, by nlinarith, ?_⟩
  have h600 : (600 : ℚ) ≠ 0 := by norm_num
  have hsimp : 1 - (600 - t * 600) / 600 = t := by field_simp
  rw [hsimp, ht, div_mul_cancel₀ _ hd]
  ring

/-- Closed instance of `chart_coordinate_roundtrip` at
`minVal = 0, maxVal = 600, v = 150`. -/
theorem chart_coordinate_roundtrip_witness :
    0 ≤ normalizeToCanvas 0 600 150 ∧
    normalizeToCanvas 0 600 150 ≤ HEIGHT ∧
    canvasToValue 0 600 (normalizeToCanvas 0 600 150) = 150 :=
  chart_coordinate_roundtrip 0 600 150 (by norm_num) (by norm_num) (by norm_num)

/-- The constant `MAX_POINTS` evaluates to 46 (`floor(900 / 20) + 1`). -/
theorem MAX_POINTS_eq : MAX_POINTS = 46 := by
  unfold MAX_POINTS
  show (⌊(WIDTH / STEP_X : ℚ)⌋).toNat + 1 = 46
  norm_num [WIDTH, STEP_X]
  rfl

/-- Length behaviour of one buffer push. -/
theorem pushPoint_length (data : List ℚ) (v : ℚ) :
    (pushPoint data v).length =
      if data.length + 1 ≤ MAX_POINTS then data.length + 1 else data.length := by
  simp only [pushPoint, List.length_append, List.length_singleton]
  split_ifs with h1 h2 h2 <;> simp [List.length_tail] <;> omega

/-- Length of iterated pushes: capped growth up to `MAX_POINTS`. -/
theorem foldl_pushPoint_length (gen : ℕ → ℚ) :
    ∀ (l : List ℕ) (d : List ℚ), d.length ≤ MAX_POINTS →
      (l.foldl (fun d i => pushPoint d (gen i)) d).length =
        min (d.length + l.length) MAX_POINTS := by
  intro l
  induction l with
  | nil =>
    intro d hd
    simpa using (min_eq_left hd).symm
  | cons i l ih =>
    intro d hd
    rw [List.foldl_cons]
    simp only [List.length_cons]
    have hl := pushPoint_length d (gen i)
    by_cases h : d.length + 1 ≤ MAX_POINTS
    · rw [if_pos h] at hl
      rw [ih (pushPoint d (gen i)) (by omega), hl]
      congr 1
      omega
    · rw [if_neg h] at hl
      have hdm : d.length = MAX_POINTS := by omega
      rw [ih (pushPoint d (gen i)) (by omega), hl, hdm]
      rw [min_eq_right (Nat.le_add_right _ _), min_eq_right (Nat.le_add_right _ _)]

/-- Claim C9: the per-series FIFO capacity bound.  `seedInitialData`
fills a series to exactly `MAX_POINTS` values; `pushPoint` appends the
new value, dropping the oldest exactly when the buffer would exceed
`MAX_POINTS`; hence a buffer within capacity stays within capacity. -/
theorem series_fifo_bound (gen : ℕ → ℚ) (data : List ℚ) (v : ℚ) :
    (seedInitialData gen).length = MAX_POINTS ∧
    (data.length < MAX_POINTS → pushPoint data v = data ++ [v]) ∧
    (MAX_POINTS ≤ data.length → pushPoint data v = data.tail ++ [v]) ∧
    (data.length ≤ MAX_POINTS → (pushPoint data v).length ≤ MAX_POINTS) := by
  refine ⟨?_, ?_, ?_, ?_⟩
  · unfold seedInitialData
    rw [foldl_pushPoint_length gen _ [] (by simp)]
    simp
  · intro h
    simp only [pushPoint, List.length_append, List.length_singleton]
    rw [if_neg (by omega)]
  · intro h
    have hpos : 0 < MAX_POINTS := by rw [MAX_POINTS_eq]; omega
    simp only [pushPoint, List.length_append, List.length_singleton]
    rw [if_pos (by omega)]
    cases data with
    | nil => simp at h; omega
    | cons a l => simp
  · intro h
    rw [pushPoint_length]
    split_ifs with h1 <;> omega

/-- Closed instance of `series_fifo_bound`: pushing onto a full buffer
of 46 zeros drops the oldest entry, and seeding yields `MAX_POINTS`
values. -/
theorem series_fifo_bound_witness :
    pushPoint (List.replicate 46 (0 : ℚ)) 5 =
      (List.replicate 46 (0 : ℚ)).tail ++ [5] ∧
    (seedInitialData (fun _ => 0)).length = MAX_POINTS :=
  ⟨(series_fifo_bound (fun _ => 0) (List.replicate 46 0) 5).2.2.1
     (by rw [MAX_POINTS_eq]; simp),
   (series_fifo_bound (fun _ => 0) [] 0).1⟩

/-- The average of a nonempty list of rationals lies between any lower
and upper bound of its elements. -/
theorem avg_between_bounds {l : List ℚ} {lo hi : ℚ} (hne : l ≠ [])
    (hlo : ∀ x ∈ l, lo ≤ x) (hhi : ∀ x ∈ l, x ≤ hi) :
    lo ≤ l.sum / (l.length : ℚ) ∧ l.sum / (l.length : ℚ) ≤ hi := by
  have hpos : (0 : ℚ) < (l.length : ℚ) := by
    exact_mod_cast List.length_pos.mpr hne
  constructor
  · rw [le_div_iff₀ hpos]
    have h1 := List.card_nsmul_le_sum l lo hlo
    rw [nsmul_eq_mul] at h1
    linarith
  · rw [div_le_iff₀ hpos]
    have h1 := List.sum_le_card_nsmul l hi hhi
    rw [nsmul_eq_mul] at h1
    linarith

/-- The smoothing window at a valid index always contains that index. -/
theorem maWindow_self_mem (n w i : ℕ) (hi : i < n) : (i : ℤ) ∈ maWindow n w i := by
  unfold maWindow
  simp only [List.mem_filter, List.mem_map, List.mem_range, decide_eq_true_eq]
  exact ⟨⟨w / 2, by omega, by push_cast; ring⟩, by positivity, by exact_mod_cast hi⟩

/-- Claim C10: `movingAverage` preserves length, is the identity for
window sizes at most 1, and (for a nonempty input) every output value
lies between the minimum and the maximum of the input. -/
theorem movingAverage_props (arr : List ℚ) (w : ℕ) :
    (movingAverage arr w).length = arr.length ∧
    (w ≤ 1 → movingAverage arr w = arr) ∧
    (∀ lo hi : ℚ, arr.minimum = (lo : WithTop ℚ) → arr.maximum = (hi : WithBot ℚ) →
      ∀ y ∈ movingAverage arr w, lo ≤ y ∧ y ≤ hi) := by
  refine ⟨?_, ?_, ?_⟩
  · unfold movingAverage
    split_ifs with h
    · rfl
    · simp
  · intro h
    unfold movingAverage
    rw [if_pos h]
  · intro lo hi hmin hmax y hy
    have hlo : ∀ x ∈ arr, lo ≤ x := by
      intro x hx
      have h1 := List.minimum_le_of_mem' hx
      rw [hmin] at h1
      exact_mod_cast h1
    have hhi : ∀ x ∈ arr, x ≤ hi := by
      intro x hx
      have h1 := List.le_maximum_of_mem' hx
      rw [hmax] at h1
      exact_mod_cast h1
    unfold movingAverage at hy
    split_ifs at hy with h
    · exact ⟨hlo y hy, hhi y hy⟩
    · simp only [List.mem_map, List.mem_range] at hy
      obtain ⟨i, hilt, rfl⟩ := hy
      have hmem : (i : ℤ) ∈ maWindow arr.length w i := maWindow_self_mem _ w i hilt
      have hjsne : maWindow arr.length w i ≠ [] := List.ne_nil_of_mem hmem
      have hcount : (maWindow arr.length w i).length ≠ 0 :=
        fun hc => hjsne (List.eq_nil_of_length_eq_zero hc)
      have hvlo : ∀ x ∈ (maWindow arr.length w i).map (fun j => arr.getD j.toNat 0),
          lo ≤ x := by
        intro x hx
        rw [List.mem_map] at hx
        obtain ⟨j, hj, rfl⟩ := hx
        have hjb := (List.mem_filter.mp hj).2
        simp only [decide_eq_true_eq] at hjb
        have hjlt : j.toNat < arr.length := by omega
        rw [List.getD_eq_getElem?_getD, List.getElem?_eq_getElem hjlt]
        exact hlo _ (List.getElem_mem _)
      have hvhi : ∀ x ∈ (maWindow arr.length w i).map (fun j => arr.getD j.toNat 0),
          x ≤ hi := by
        intro x hx
        rw [List.mem_map] at hx
        obtain ⟨j, hj, rfl⟩ := hx
        have hjb := (List.mem_filter.mp hj).2
        simp only [decide_eq_true_eq] at hjb
        have hjlt : j.toNat < arr.length := by omega
        rw [List.getD_eq_getElem?_getD, List.getElem?_eq_getElem hjlt]
        exact hhi _ (List.getElem_mem _)
      have hmapne : (maWindow arr.length w i).map (fun j => arr.getD j.toNat 0) ≠ [] := by
        simpa using hjsne
      have havg := avg_between_bounds hmapne hvlo hvhi
      rw [List.length_map] at havg
      simpa [hcount] using havg

/-- Claim C5: once the game is over (`status ≠ inProgress`),
`submitGuess` rejects any input with `GameAlreadyOver`.  The function
is pure and the error result carries no successor state, so the game
state — attemptIndex, history, status — is untouched. -/
theorem submitGuess_rejects_when_over (ma : ℕ) (st : GameState) (raw : List Char)
    (h : st.status ≠ Status.inProgress) :
    submitGuess ma st raw = .error GameError.GameAlreadyOver := by
  unfold submitGuess
  rw [if_pos h]

/-- Closed instance of `submitGuess_rejects_when_over` on a won game. -/
theorem submitGuess_rejects_when_over_witness :
    submitGuess 6 ⟨"candy".toList, 3, [], Status.won⟩ "pasta".toList =
      .error GameError.GameAlreadyOver :=
  submitGuess_rejects_when_over 6 ⟨"candy".toList, 3, [], Status.won⟩
    "pasta".toList (by decide)

/-- Claim C6: `evaluate` is a deterministic pure function — two calls
on the same secret and guess yield the same mark sequence. -/
theorem evaluate_deterministic (S G : List Char) : evaluate S G = evaluate S G := rfl

/-- Claim C3: on an in-progress game, a normalized guess of the wrong
length is rejected with `InvalidLength`, and one of the right length
containing a non-letter character is rejected with `InvalidAlphabet`.
`submitGuess` is pure and an error result carries no successor state,
so attemptIndex, history and status are unchanged and no attempt is
consumed. -/
theorem submitGuess_validation_errors (ma : ℕ) (st : GameState) (raw : List Char)
    (hst : st.status = Status.inProgress) :
    ((normalizeGuess raw).length ≠ st.secret.length →
      submitGuess ma st raw = .error GameError.InvalidLength) ∧
    ((normalizeGuess raw).length = st.secret.length →
      ¬ ((normalizeGuess raw).all Char.isAlpha = true) →
      submitGuess ma st raw = .error GameError.InvalidAlphabet) := by
  unfold submitGuess
  rw [if_neg (by simp [hst])]
  constructor
  · intro h
    rw [if_pos h]
  · intro h1 h2
    rw [if_neg (by simp [h1]), if_pos h2]

/-- Closed instance of `submitGuess_validation_errors`: a 4-letter and
a digit-bearing guess against a 5-letter secret. -/
theorem submitGuess_validation_errors_witness :
    submitGuess 6 ⟨"candy".toList, 0, [], Status.inProgress⟩ "dog".toList =
      .error GameError.InvalidLength ∧
    submitGuess 6 ⟨"candy".toList, 0, [], Status.inProgress⟩ "ab1de".toList =
      .error GameError.InvalidAlphabet :=
  ⟨(submitGuess_validation_errors 6 ⟨"candy".toList, 0, [], Status.inProgress⟩
      "dog".toList rfl).1 (by decide),
   (submitGuess_validation_errors 6 ⟨"candy".toList, 0, [], Status.inProgress⟩
      "ab1de".toList rfl).2 (by decide) (by decide)⟩

/-- Pass 2 keeps each input pair alongside its mark. -/
theorem evalGo_map_fst (rem : Char → ℕ) (pairs : List (Char × Char)) :
    (evalGo rem pairs).map (fun e => e.1) = pairs := by
  induction pairs generalizing rem with
  | nil => rfl
  | cons p rest ih =>
    obtain ⟨s, g⟩ := p
    unfold evalGo
    split_ifs with h1 h2 <;> simp [ih]

/-- Pass 2 returns one mark per input pair. -/
theorem evalGo_length (rem : Char → ℕ) (pairs : List (Char × Char)) :
    (evalGo rem pairs).length = pairs.length := by
  have h := congrArg List.length (evalGo_map_fst rem pairs)
  simpa using h

/-- Zipping a list with itself pairs each element with itself. -/
theorem zip_self_eq_map (l : List Char) : l.zip l = l.map (fun a => (a, a)) := by
  induction l with
  | nil => rfl
  | cons a l ih => simp [List.zip_cons_cons, ih]

/-- When every pair is an exact position, every mark is `exact`. -/
theorem evalGo_all_exact (rem : Char → ℕ) (pairs : List (Char × Char))
    (h : ∀ p ∈ pairs, p.1 = p.2) :
    ∀ e ∈ evalGo rem pairs, e.2 = LetterMark.exact := by
  induction pairs generalizing rem with
  | nil => simp [evalGo]
  | cons p rest ih =>
    obtain ⟨s, g⟩ := p
    have hsg : s = g := h (s, g) (by simp)
    intro e he
    unfold evalGo at he
    rw [if_pos hsg] at he
    rcases List.mem_cons.mp he with h1 | h1
    · rw [h1]
    · exact ih rem (fun q hq => h q (List.mem_cons_of_mem _ hq)) e h1

/-- Claim C4: `evaluate(S, S)` is an all-`exact` mark sequence of the
secret's length, and submitting the secret itself on a fresh
in-progress game wins it after that single attempt. -/
theorem evaluate_self_wins (S : List Char) (ma : ℕ) (st : GameState) (raw : List Char)
    (hst : st.status = Status.inProgress) (hattempt : st.attemptIndex = 0)
    (hraw : normalizeGuess raw = st.secret)
    (halpha : st.secret.all Char.isAlpha = true) :
    (evaluate S S).length = S.length ∧
    (∀ m ∈ evaluate S S, m = LetterMark.exact) ∧
    ∃ st', submitGuess ma st raw = .ok st' ∧ st'.status = Status.won ∧
      st'.attemptIndex = 1 := by
  refine ⟨?_, ?_, ?_⟩
  · simp [evaluate, evalGo_length]
  · intro m hm
    rw [evaluate, List.mem_map] at hm
    obtain ⟨e, he, rfl⟩ := hm
    refine evalGo_all_exact _ _ ?_ e he
    intro p hp
    rw [zip_self_eq_map, List.mem_map] at hp
    obtain ⟨a, _, rfl⟩ := hp
    rfl
  · unfold submitGuess
    rw [if_neg (by simp [hst]), if_neg (by simp [hraw]), if_neg (by simp [hraw, halpha])]
    exact ⟨_, rfl, by simp [hraw], by simp [hattempt]⟩

/-- Closed instance of `evaluate_self_wins` with secret `"candy"`. -/
theorem evaluate_self_wins_witness :
    (evaluate "candy".toList "candy".toList).length = "candy".toList.length ∧
    (∀ m ∈ evaluate "candy".toList "candy".toList, m = LetterMark.exact) ∧
    ∃ st', submitGuess 6 ⟨"candy".toList, 0, [], Status.inProgress⟩ "candy".toList =
        .ok st' ∧ st'.status = Status.won ∧ st'.attemptIndex = 1 :=
  evaluate_self_wins "candy".toList 6 ⟨"candy".toList, 0, [], Status.inProgress⟩
    "candy".toList rfl rfl (by decide) (by decide)

/-- Field-level description of a successful `submitGuess`: it consumes
one attempt, keeps the secret, and sets `won`/`lost` exactly by the
spec's rules. -/
theorem submitGuess_ok_fields (ma : ℕ) (st : GameState) (raw : List Char)
    (st' : GameState) (h : submitGuess ma st raw = .ok st') :
    st.status = Status.inProgress ∧
    st'.attemptIndex = st.attemptIndex + 1 ∧
    st'.secret = st.secret ∧
    (st'.status = Status.won ↔ normalizeGuess raw = st.secret) ∧
    (st'.status = Status.lost ↔
      (normalizeGuess raw ≠ st.secret ∧ st'.attemptIndex = ma)) := by
  unfold submitGuess at h
  by_cases h1 : st.status ≠ Status.inProgress
  · rw [if_pos h1] at h
    cases h
  · rw [if_neg h1] at h
    by_cases h2 : (normalizeGuess raw).length ≠ st.secret.length
    · rw [if_pos h2] at h
      cases h
    · rw [if_neg h2] at h
      by_cases h3 : ¬ ((normalizeGuess raw).all Char.isAlpha = true)
      · rw [if_pos h3] at h
        cases h
      · rw [if_neg h3] at h
        injection h with h
        subst h
        refine ⟨not_not.mp h1, rfl, rfl, ?_, ?_⟩
        · by_cases hw : normalizeGuess raw = st.secret
          · simp [hw]
          · rw [if_neg hw]
            by_cases hl : st.attemptIndex + 1 = ma <;> simp [hw, hl]
        · by_cases hw : normalizeGuess raw = st.secret
          · simp [hw]
          · rw [if_neg hw]
            by_cases hl : st.attemptIndex + 1 = ma <;> simp [hw, hl]

/-- Running a sequence of valid non-winning guesses: each consumes one
attempt, and the game becomes `lost` exactly when the attempt counter
reaches `maxAttempts`. -/
theorem submitRun_nonwinning (ma : ℕ) :
    ∀ (raws : List (List Char)) (st : GameState),
      st.status = Status.inProgress → st.attemptIndex < ma →
      st.attemptIndex + raws.length ≤ ma →
      (∀ r ∈ raws, (normalizeGuess r).length = st.secret.length ∧
        (normalizeGuess r).all Char.isAlpha = true ∧ normalizeGuess r ≠ st.secret) →
      ∃ st', submitRun ma st raws = .ok st' ∧
        st'.attemptIndex = st.attemptIndex + raws.length ∧
        st'.secret = st.secret ∧
        st'.status = (if st.attemptIndex + raws.length = ma then Status.lost
                      else Status.inProgress) := by
  intro raws
  induction raws with
  | nil =>
    intro st hst hlt hle hval
    refine ⟨st, rfl, by simp, rfl, ?_⟩
    rw [if_neg (by simp; omega)]
    exact hst
  | cons r rs ih =>
    intro st hst hlt hle hval
    obtain ⟨hlen, halpha, hne⟩ := hval r (by simp)
    have hstep : submitGuess ma st r = .ok
        { secret := st.secret, attemptIndex := st.attemptIndex + 1,
          history := st.history ++
            [(normalizeGuess r, evaluate st.secret (normalizeGuess r))],
          status := if st.attemptIndex + 1 = ma then Status.lost
                    else Status.inProgress } := by
      unfold submitGuess
      rw [if_neg (by simp [hst]), if_neg (by simp [hlen]), if_neg (by simp [halpha]),
        if_neg hne]
    rw [submitRun, hstep]
    by_cases hm : st.attemptIndex + 1 = ma
    · have hrs : rs = [] := by
        have := hle
        simp only [List.length_cons] at this
        have hlen0 : rs.length = 0 := by omega
        exact List.eq_nil_of_length_eq_zero hlen0
      subst hrs
      refine ⟨_, rfl, by simp, rfl, ?_⟩
      simp [hm]
    · have hstep2 := ih
        { secret := st.secret, attemptIndex := st.attemptIndex + 1,
          history := st.history ++
            [(normalizeGuess r, evaluate st.secret (normalizeGuess r))],
          status := if st.attemptIndex + 1 = ma then Status.lost
                    else Status.inProgress }
        (by simp [hm]) (by simp; omega) (by simp at hle ⊢; omega)
        (by intro q hq; exact hval q (List.mem_cons_of_mem _ hq))
      obtain ⟨st', hrun, hattempt, hsecret, hstatus⟩ := hstep2
      refine ⟨st', hrun, ?_, by simpa using hsecret, ?_⟩
      · simp only [List.length_cons]
        simp at hattempt
        omega
      · rw [hstatus]
        simp only [List.length_cons]
        by_cases hfin : st.attemptIndex + 1 + rs.length = ma
      
        · rw [if_pos (by simpa using hfin), if_pos (by omega)]
        · rw [if_neg (by simpa using hfin), if_neg (by omega)]

/-- Claim C2: an accepted guess wins exactly when it equals the secret
and loses exactly when it is a non-winning guess that brings the
attempt counter to `maxAttempts`; running `maxAttempts` valid
non-winning guesses from a fresh game produces `Lost` exactly after the
last one and never earlier (`inProgress` before that). -/
theorem game_status_transitions (ma : ℕ) (st st₁ st' : GameState)
    (raw : List Char) (raws : List (List Char))
    (hok : submitGuess ma st₁ raw = .ok st')
    (hst : st.status = Status.inProgress) (h0 : st.attemptIndex = 0)
    (hma : 0 < ma) (hlen : raws.length ≤ ma)
    (hval : ∀ r ∈ raws, (normalizeGuess r).length = st.secret.length ∧
      (normalizeGuess r).all Char.isAlpha = true ∧ normalizeGuess r ≠ st.secret) :
    ((st'.status = Status.won ↔ normalizeGuess raw = st₁.secret) ∧
     (st'.status = Status.lost ↔
       (normalizeGuess raw ≠ st₁.secret ∧ st'.attemptIndex = ma)) ∧
     st'.attemptIndex = st₁.attemptIndex + 1) ∧
    (∃ stf, submitRun ma st raws = .ok stf ∧ stf.attemptIndex = raws.length ∧
      stf.status = (if raws.length = ma then Status.lost else Status.inProgress)) := by
  constructor
  · obtain ⟨_, ha, _, hw, hl⟩ := submitGuess_ok_fields ma st₁ raw st' hok
    exact ⟨hw, hl, ha⟩
  · obtain ⟨stf, hrun, hattempt, _, hstatus⟩ :=
      submitRun_nonwinning ma raws st hst (by omega) (by omega) hval
    refine ⟨stf, hrun, by omega, ?_⟩
    rw [hstatus, h0]
    simp

/-- Closed instance of `game_status_transitions`: a 2-attempt game on
secret `"ab"`; the single-step part at a winning guess, the run part at
two valid non-winning guesses, after which the game is lost. -/
theorem game_status_transitions_witness :
    ((Status.won = Status.won ↔ normalizeGuess "ab".toList = "ab".toList) ∧
     (Status.won = Status.lost ↔
       (normalizeGuess "ab".toList ≠ "ab".toList ∧ 1 = 2)) ∧
     (1 : ℕ) = 0 + 1) ∧
    (∃ stf, submitRun 2 ⟨"ab".toList, 0, [], Status.inProgress⟩
        ["aa".toList, "bb".toList] = .ok stf ∧
      stf.attemptIndex = 2 ∧
      stf.status = (if 2 = 2 then Status.lost else Status.inProgress)) := by
  have h := game_status_transitions 2 ⟨"ab".toList, 0, [], Status.inProgress⟩
    ⟨"ab".toList, 0, [], Status.inProgress⟩
    ⟨"ab".toList, 1,
      [(normalizeGuess "ab".toList, evaluate "ab".toList (normalizeGuess "ab".toList))],
      Status.won⟩
    "ab".toList ["aa".toList, "bb".toList]
    rfl rfl rfl (by decide) (by decide) (by decide)
  exact ⟨h.1, h.2⟩

/-- Pass 2 marks `present`, on positions carrying letter `c`, exactly
`min` of the number of non-exact `c`-positions and the remaining count
of `c`. -/
theorem evalGo_present_count (c : Char) :
    ∀ (pairs : List (Char × Char)) (rem : Char → ℕ),
      (evalGo rem pairs).countP (fun e => e.1.2 = c ∧ e.2 = LetterMark.present)
        = min (pairs.countP (fun p => p.2 = c ∧ p.1 ≠ p.2)) (rem c) := by
  intro pairs
  induction pairs with
  | nil =>
    intro rem
    simp [evalGo]
  | cons p rest ih =>
    intro rem
    obtain ⟨s, g⟩ := p
    unfold evalGo
    split_ifs with h1 h2
    · rw [List.countP_cons, List.countP_cons, ih rem]
      simp [h1]
    · rw [List.countP_cons, List.countP_cons, ih (decAt rem g)]
      by_cases hgc : g = c
      · subst hgc
        have hdec : decAt rem g g = rem g - 1 := by simp [decAt]
        rw [hdec]
        simp [h1]
        omega
      · have hdec : decAt rem g c = rem c := by simp [decAt, Ne.symm hgc]
        rw [hdec]
        simp [hgc]
    · rw [List.countP_cons, List.countP_cons, ih rem]
      by_cases hgc : g = c
      · subst hgc
        have hzero : rem g = 0 := by omega
        simp [h1, hzero]
      · simp [hgc]

/-- Pass 2 keeps exactly the pass-1 `exact` marks on letter `c`. -/
theorem evalGo_exact_count (c : Char) :
    ∀ (pairs : List (Char × Char)) (rem : Char → ℕ),
      (evalGo rem pairs).countP (fun e => e.1.2 = c ∧ e.2 = LetterMark.exact)
        = pairs.countP (fun p => p.2 = c ∧ p.1 = p.2) := by
  intro pairs
  induction pairs with
  | nil =>
    intro rem
    simp [evalGo]
  | cons p rest ih =>
    intro rem
    obtain ⟨s, g⟩ := p
    unfold evalGo
    split_ifs with h1 h2
    · rw [List.countP_cons, List.countP_cons, ih rem]
      by_cases hgc : g = c <;> simp [h1, hgc]
    · rw [List.countP_cons, List.countP_cons, ih (decAt rem g)]
      simp [h1]
    · rw [List.countP_cons, List.countP_cons, ih rem]
      simp [h1]

/-- Pass 2 marks `absent`, on positions carrying letter `c`, exactly
the non-exact `c`-positions in excess of the remaining count. -/
theorem evalGo_absent_count (c : Char) :
    ∀ (pairs : List (Char × Char)) (rem : Char → ℕ),
      (evalGo rem pairs).countP (fun e => e.1.2 = c ∧ e.2 = LetterMark.absent)
        = pairs.countP (fun p => p.2 = c ∧ p.1 ≠ p.2) - rem c := by
  intro pairs
  induction pairs with
  | nil =>
    intro rem
    simp [evalGo]
  | cons p rest ih =>
    intro rem
    obtain ⟨s, g⟩ := p
    unfold evalGo
    split_ifs with h1 h2
    · rw [List.countP_cons, List.countP_cons, ih rem]
      simp [h1]
    · rw [List.countP_cons, List.countP_cons, ih (decAt rem g)]
      by_cases hgc : g = c
      · subst hgc
        have hdec : decAt rem g g = rem g - 1 := by simp [decAt]
        rw [hdec]
        simp [h1]
        omega
      · have hdec : decAt rem g c = rem c := by simp [decAt, Ne.symm hgc]
        rw [hdec]
        simp [hgc]
    · rw [List.countP_cons, List.countP_cons, ih rem]
      by_cases hgc : g = c
      · subst hgc
        have hzero : rem g = 0 := by omega
        simp [h1, hzero]
      · simp [hgc]

/-- Zipping the guess letters with the produced marks is the same as
projecting each `evalGo` entry to (its guess letter, its mark). -/
theorem zip_snd_evalGo (rem : Char → ℕ) :
    ∀ pairs : List (Char × Char),
      (pairs.map Prod.snd).zip ((evalGo rem pairs).map (fun e => e.2))
        = (evalGo rem pairs).map (fun e => (e.1.2, e.2)) := by
  intro pairs
  induction pairs generalizing rem with
  | nil => rfl
  | cons p rest ih =>
    obtain ⟨s, g⟩ := p
    unfold evalGo
    split_ifs with h1 h2 <;> simp [List.zip_cons_cons, ih]

/-- Counting marked guess letters through the zipped projection. -/
theorem countP_zip_snd_evalGo (rem : Char → ℕ) (pairs : List (Char × Char))
    (c : Char) (m : LetterMark) :
    ((pairs.map Prod.snd).zip ((evalGo rem pairs).map (fun e => e.2))).countP
        (fun p => p.1 = c ∧ p.2 = m)
      = (evalGo rem pairs).countP (fun e => e.1.2 = c ∧ e.2 = m) := by
  rw [zip_snd_evalGo, List.countP_map]
  rfl

/-- Counting `marksOn` over the evaluator output is a `countP` over the
bookkeeping entries of pass 2. -/
theorem marksOn_eq_countP (secret guess : List Char) (c : Char) (m : LetterMark)
    (hlen : secret.length = guess.length) :
    marksOn guess (evaluate secret guess) c m
      = (evalGo (remAfterExact secret guess) (secret.zip guess)).countP
          (fun e => e.1.2 = c ∧ e.2 = m) := by
  have key := countP_zip_snd_evalGo (remAfterExact secret guess) (secret.zip guess) c m
  rw [List.map_snd_zip secret guess (le_of_eq hlen.symm)] at key
  unfold marksOn evaluate
  rw [← List.countP_eq_length_filter]
  exact key

/-- Letter count `countOf` on the guess counted through the zipped pairs. -/
theorem countOf_guess_eq_countP (secret guess : List Char) (c : Char)
    (hlen : secret.length = guess.length) :
    countOf guess c = (secret.zip guess).countP (fun p => p.2 = c) := by
  have key : ((secret.zip guess).map Prod.snd).countP (fun a => a = c)
      = (secret.zip guess).countP (fun p => p.2 = c) := by
    rw [List.countP_map]
    rfl
  rw [List.map_snd_zip secret guess (le_of_eq hlen.symm)] at key
  unfold countOf
  rw [← List.countP_eq_length_filter]
  exact key

/-- Rewriting `exactMatchesOn` as a `countP` with the predicate order used by the
pass-2 counting lemmas. -/
theorem exactMatchesOn_eq_countP (secret guess : List Char) (c : Char) :
    exactMatchesOn secret guess c
      = (secret.zip guess).countP (fun p => p.2 = c ∧ p.1 = p.2) := by
  unfold exactMatchesOn
  rw [← List.countP_eq_length_filter]
  refine List.countP_congr ?_
  intro x _
  simp only [decide_eq_true_eq]
  constructor
  · rintro ⟨h1, h2⟩
    exact ⟨h1.symm.trans h2, h1⟩
  · rintro ⟨h1, h2⟩
    exact ⟨h2, h2.trans h1⟩

/-- Splitting the `c`-positions of the guess into exact and non-exact
ones. -/
theorem countP_snd_split (pairs : List (Char × Char)) (c : Char) :
    pairs.countP (fun p => p.2 = c)
      = pairs.countP (fun p => p.2 = c ∧ p.1 = p.2)
        + pairs.countP (fun p => p.2 = c ∧ p.1 ≠ p.2) := by
  induction pairs with
  | nil => rfl
  | cons p l ih =>
    rw [List.countP_cons, List.countP_cons, List.countP_cons, ih]
    by_cases h1 : p.2 = c
    · by_cases h2 : p.1 = p.2
      · have c1 : decide (p.2 = c) = true := decide_eq_true h1
        have c2 : decide (p.2 = c ∧ p.1 = p.2) = true := decide_eq_true ⟨h1, h2⟩
        have c3 : ¬ decide (p.2 = c ∧ p.1 ≠ p.2) = true := by
          simp only [decide_eq_true_eq]
          exact fun h => h.2 h2
        rw [if_pos c1, if_pos c2, if_neg c3]
        omega
      · have c1 : decide (p.2 = c) = true := decide_eq_true h1
        have c2 : ¬ decide (p.2 = c ∧ p.1 = p.2) = true := by
          simp only [decide_eq_true_eq]
          exact fun h => h2 h.2
        have c3 : decide (p.2 = c ∧ p.1 ≠ p.2) = true := decide_eq_true ⟨h1, h2⟩
        rw [if_pos c1, if_neg c2, if_pos c3]
        omega
    · have c1 : ¬ decide (p.2 = c) = true := by
        simp only [decide_eq_true_eq]
        exact h1
      have c2 : ¬ decide (p.2 = c ∧ p.1 = p.2) = true := by
        simp only [decide_eq_true_eq]
        exact fun h => h1 h.1
      have c3 : ¬ decide (p.2 = c ∧ p.1 ≠ p.2) = true := by
        simp only [decide_eq_true_eq]
        exact fun h => h1 h.1
      rw [if_neg c1, if_neg c2, if_neg c3]
      omega

/-- Once a letter's remaining count is zero, pass 2 never marks it
`present` anywhere in the remaining positions. -/
theorem evalGo_zero_no_present (c : Char) :
    ∀ (pairs : List (Char × Char)) (rem : Char → ℕ), rem c = 0 →
      ∀ e ∈ evalGo rem pairs, e.1.2 = c → e.2 ≠ LetterMark.present := by
  intro pairs
  induction pairs with
  | nil =>
    intro rem h0 e he
    simp [evalGo] at he
  | cons p rest ih =>
    intro rem h0 e he hc
    obtain ⟨s, g⟩ := p
    unfold evalGo at he
    split_ifs at he with h1 h2
    · rcases List.mem_cons.mp he with h | h
      · subst h
        simp
      · exact ih rem h0 e h hc
    · rcases List.mem_cons.mp he with h | h
      · subst h
        simp only at hc
        subst hc
        omega
      · refine ih (decAt rem g) ?_ e h hc
        simp only [decAt]
        split_ifs with hcg
        · subst hcg
          omega
        · exact h0
    · rcases List.mem_cons.mp he with h | h
      · subst h
        simp
      · exact ih rem h0 e h hc

/-- Left-to-right assignment: if some occurrence of letter `c` is
marked `absent`, no later occurrence of `c` is marked `present`. -/
theorem evalGo_ltr (c : Char) :
    ∀ (pairs : List (Char × Char)) (rem : Char → ℕ) (i j : ℕ)
      (ei ej : (Char × Char) × LetterMark), i < j →
      (evalGo rem pairs)[i]? = some ei → ei.1.2 = c → ei.2 = LetterMark.absent →
      (evalGo rem pairs)[j]? = some ej → ej.1.2 = c → ej.2 ≠ LetterMark.present := by
  intro pairs
  induction pairs with
  | nil =>
    intro rem i j ei ej hij hi
    simp [evalGo] at hi
  | cons p rest ih =>
    intro rem i j ei ej hij hi hic hiab hj hjc
    obtain ⟨s, g⟩ := p
    obtain ⟨j', rfl⟩ : ∃ j', j = j' + 1 := ⟨j - 1, by omega⟩
    unfold evalGo at hi hj
    split_ifs at hi hj with h1 h2
    · cases i with
      | zero =>
        simp only [List.getElem?_cons_zero, Option.some.injEq] at hi
        rw [← hi] at hiab
        simp at hiab
      | succ i' =>
        simp only [List.getElem?_cons_succ] at hi hj
        exact ih rem i' j' ei ej (by omega) hi hic hiab hj hjc
    · cases i with
      | zero =>
        simp only [List.getElem?_cons_zero, Option.some.injEq] at hi
        rw [← hi] at hiab
        simp at hiab
      | succ i' =>
        simp only [List.getElem?_cons_succ] at hi hj
        exact ih (decAt rem g) i' j' ei ej (by omega) hi hic hiab hj hjc
    · cases i with
      | zero =>
        simp only [List.getElem?_cons_zero, Option.some.injEq] at hi
        rw [← hi] at hic
        simp only at hic
        have h0 : rem c = 0 := by
          subst hic
          omega
        simp only [List.getElem?_cons_succ] at hj
        exact evalGo_zero_no_present c rest rem h0 ej (List.getElem?_mem hj) hjc
      | succ i' =>
        simp only [List.getElem?_cons_succ] at hi hj
        exact ih rem i' j' ei ej (by omega) hi hic hiab hj hjc

/-- Claim C1: for each letter `c` with `k` occurrences in the secret,
`m` in the guess and `e` exact matches, `evaluate` marks the exact
positions `exact`, marks exactly `min (m - e) (k - e)` of the non-exact
`c`-occurrences `present`, marks the remaining `c`-occurrences
`absent`, and assigns `present` left-to-right: after an `absent`
occurrence of `c`, no later occurrence of `c` is `present`. -/
theorem evaluate_letter_accounting (secret guess : List Char) (c : Char)
    (hlen : secret.length = guess.length) :
    marksOn guess (evaluate secret guess) c LetterMark.exact
        = exactMatchesOn secret guess c ∧
    marksOn guess (evaluate secret guess) c LetterMark.present
        = min (countOf guess c - exactMatchesOn secret guess c)
              (countOf secret c - exactMatchesOn secret guess c) ∧
    marksOn guess (evaluate secret guess) c LetterMark.absent
        = (countOf guess c - exactMatchesOn secret guess c)
          - min (countOf guess c - exactMatchesOn secret guess c)
                (countOf secret c - exactMatchesOn secret guess c) ∧
    (∀ i j : ℕ, i < j → guess[i]? = some c → guess[j]? = some c →
      (evaluate secret guess)[i]? = some LetterMark.absent →
      (evaluate secret guess)[j]? ≠ some LetterMark.present) := by
  have hE := exactMatchesOn_eq_countP secret guess c
  have hM := countOf_guess_eq_countP secret guess c hlen
  have hsplit := countP_snd_split (secret.zip guess) c
  have hremc : remAfterExact secret guess c
      = countOf secret c - exactMatchesOn secret guess c := rfl
  have hNE : (secret.zip guess).countP (fun p => p.2 = c ∧ p.1 ≠ p.2)
      = countOf guess c - exactMatchesOn secret guess c := by
    omega
  refine ⟨?_, ?_, ?_, ?_⟩
  · rw [marksOn_eq_countP secret guess c _ hlen, evalGo_exact_count, hE]
  · rw [marksOn_eq_countP secret guess c _ hlen, evalGo_present_count, hNE, hremc]
  · rw [marksOn_eq_countP secret guess c _ hlen, evalGo_absent_count, hNE, hremc]
    omega
  · intro i j hij hgi hgj
    rw [show evaluate secret guess
        = (evalGo (remAfterExact secret guess) (secret.zip guess)).map (fun e => e.2)
      from rfl, List.getElem?_map, List.getElem?_map]
    intro hai hpj
    obtain ⟨ei, hei, hei2⟩ := Option.map_eq_some'.mp hai
    obtain ⟨ej, hej, hej2⟩ := Option.map_eq_some'.mp hpj
    have hfsti : (secret.zip guess)[i]? = some ei.1 := by
      have h := List.getElem?_map
        (fun e : (Char × Char) × LetterMark => e.1)
        (evalGo (remAfterExact secret guess) (secret.zip guess)) i
      rw [evalGo_map_fst] at h
      rw [h, hei]
      rfl
    have hfstj : (secret.zip guess)[j]? = some ej.1 := by
      have h := List.getElem?_map
        (fun e : (Char × Char) × LetterMark => e.1)
        (evalGo (remAfterExact secret guess) (secret.zip guess)) j
      rw [evalGo_map_fst] at h
      rw [h, hej]
      rfl
    have hic : ei.1.2 = c := by
      have h := (List.getElem?_zip_eq_some.mp hfsti).2
      rw [hgi] at h
      exact (Option.some.inj h).symm
    have hjc : ej.1.2 = c := by
      have h := (List.getElem?_zip_eq_some.mp hfstj).2
      rw [hgj] at h
      exact (Option.some.inj h).symm
    exact evalGo_ltr c (secret.zip guess) (remAfterExact secret guess)
      i j ei ej hij hei hic hei2 hej hjc hej2

/-- Closed instance of `evaluate_letter_accounting` on secret
`"table"`, guess `"allee"`, letter `l`. -/
theorem evaluate_letter_accounting_witness :
    marksOn "allee".toList (evaluate "table".toList "allee".toList) 'l'
        LetterMark.present
      = min (countOf "allee".toList 'l' - exactMatchesOn "table".toList "allee".toList 'l')
            (countOf "table".toList 'l' - exactMatchesOn "table".toList "allee".toList 'l') :=
  (evaluate_letter_accounting "table".toList "allee".toList 'l' (by decide)).2.1

/-- The `Best` record a candidate index would produce,
`src/app.js:330-339`. -/
def mkCand (mouseX mouseY : ℚ) (sIdx : ℕ) (values : List ℚ)
    (pts : List DrawPoint) (i : ℤ) : Best :=
  let p := pts.getD i.toNat ⟨0, 0, 0⟩
  { dist2 := pointDist2 mouseX mouseY p, seriesName := sIdx, seriesIndex := sIdx,
    x := p.x, y := p.y, value := values.getD i.toNat 0, pointIndex := i.toNat }

/-- Keep the closer of the current best and a new candidate (first
wins ties), as in `src/app.js:330`. -/
def stepBest (best : Option Best) (cand : Best) : Option Best :=
  match best with
  | none => some cand
  | some b => if cand.dist2 < b.dist2 then some cand else some b

/-- The candidate indices `getNearestPoint` actually inspects for one
series: `round(mouseX / STEP_X) ± 1`, clipped to the valid range. -/
def candIdxs (pts : List DrawPoint) (mouseX : ℚ) : List ℤ :=
  let approx := round (mouseX / STEP_X)
  [approx - 1, approx, approx + 1].filter
    (fun i => ¬(i < 0 ∨ (pts.length : ℤ) ≤ i))

/-- The candidate records inspected for one series. -/
def seriesCands (smooth : Bool) (minVal maxVal mouseX mouseY : ℚ)
    (sIdx : ℕ) (values : List ℚ) : List Best :=
  let pts := getSeriesDrawPoints smooth minVal maxVal values
  (candIdxs pts mouseX).map (mkCand mouseX mouseY sIdx values pts)

/-- All candidate records `getNearestPoint` inspects, across series,
in inspection order. -/
def allCandidates (smooth : Bool) (minVal maxVal : ℚ)
    (seriesData : List (List ℚ)) (mouseX mouseY : ℚ) : List Best :=
  (seriesData.enum.map
    (fun p => seriesCands smooth minVal maxVal mouseX mouseY p.1 p.2)).flatten

/-- Rewriting `considerCandidate` as a guard plus a `stepBest` update. -/
theorem considerCandidate_eq (mouseX mouseY : ℚ) (sIdx : ℕ) (values : List ℚ)
    (pts : List DrawPoint) (best : Option Best) (i : ℤ) :
    considerCandidate mouseX mouseY sIdx values pts best i
      = if i < 0 ∨ (pts.length : ℤ) ≤ i then best
        else stepBest best (mkCand mouseX mouseY sIdx values pts i) := by
  unfold considerCandidate stepBest mkCand
  rfl

/-- Folding `considerCandidate` over an index list is folding
`stepBest` over the surviving candidates. -/
theorem foldl_considerCandidate (mouseX mouseY : ℚ) (sIdx : ℕ) (values : List ℚ)
    (pts : List DrawPoint) :
    ∀ (is : List ℤ) (best : Option Best),
      is.foldl (considerCandidate mouseX mouseY sIdx values pts) best
        = ((is.filter (fun i => ¬(i < 0 ∨ (pts.length : ℤ) ≤ i))).map
            (mkCand mouseX mouseY sIdx values pts)).foldl stepBest best := by
  intro is
  induction is with
  | nil =>
    intro best
    rfl
  | cons i is ih =>
    intro best
    rw [List.foldl_cons, considerCandidate_eq, List.filter_cons]
    by_cases h : i < 0 ∨ (pts.length : ℤ) ≤ i
    · rw [if_pos h, if_neg (by simp [h]), ih]
    · rw [if_neg h, if_pos (by simp [h]), List.map_cons, List.foldl_cons, ih]

/-- Hit-testing `getNearestPoint` is the `stepBest` fold over all inspected
candidates. -/
theorem getNearestPoint_eq_foldMin (smooth : Bool) (minVal maxVal : ℚ)
    (seriesData : List (List ℚ)) (mouseX mouseY : ℚ) :
    getNearestPoint smooth minVal maxVal seriesData mouseX mouseY
      = (allCandidates smooth minVal maxVal seriesData mouseX mouseY).foldl
          stepBest none := by
  unfold getNearestPoint allCandidates
  rw [List.foldl_flatten, List.foldl_map]
  congr 1
  funext best p
  rw [foldl_considerCandidate]
  rfl

/-- The `stepBest` fold returns an element of the list (or the seed)
whose distance is minimal among the list and not above the seed's. -/
theorem foldl_stepBest_spec :
    ∀ (l : List Best) (b0 : Option Best) (b : Best),
      l.foldl stepBest b0 = some b →
      (b0 = some b ∨ b ∈ l) ∧ (∀ x ∈ l, b.dist2 ≤ x.dist2) ∧
        (∀ a, b0 = some a → b.dist2 ≤ a.dist2) := by
  intro l
  induction l with
  | nil =>
    intro b0 b h
    simp only [List.foldl_nil] at h
    refine ⟨Or.inl h, by simp, ?_⟩
    intro a ha
    rw [h] at ha
    rw [Option.some.inj ha]
  | cons x l ih =>
    intro b0 b h
    rw [List.foldl_cons] at h
    obtain ⟨hmem, hall, hinit⟩ := ih (stepBest b0 x) b h
    cases b0 with
    | none =>
      have hs : stepBest none x = some x := rfl
      rw [hs] at hmem hinit
      refine ⟨?_, ?_, ?_⟩
      · rcases hmem with h1 | h1
        · exact Or.inr (List.mem_cons.mpr (Or.inl (Option.some.inj h1).symm))
        · exact Or.inr (List.mem_cons_of_mem _ h1)
      · intro y hy
        rcases List.mem_cons.mp hy with h1 | h1
        · rw [h1]
          exact hinit x rfl
        · exact hall y h1
      · intro a ha
        cases ha
    | some b1 =>
      by_cases hcmp : x.dist2 < b1.dist2
      · have hs : stepBest (some b1) x = some x := by
          simp [stepBest, hcmp]
        rw [hs] at hmem hinit
        refine ⟨?_, ?_, ?_⟩
        · rcases hmem with h1 | h1
          · exact Or.inr (List.mem_cons.mpr (Or.inl (Option.some.inj h1).symm))
          · exact Or.inr (List.mem_cons_of_mem _ h1)
        · intro y hy
          rcases List.mem_cons.mp hy with h1 | h1
          · rw [h1]
            exact hinit x rfl
          · exact hall y h1
        · intro a ha
          rw [← Option.some.inj ha]
          exact le_trans (hinit x rfl) (le_of_lt hcmp)
      · have hs : stepBest (some b1) x = some b1 := by
          simp [stepBest, hcmp]
        rw [hs] at hmem hinit
        refine ⟨?_, ?_, ?_⟩
        · rcases hmem with h1 | h1
          · exact Or.inl h1
          · exact Or.inr (List.mem_cons_of_mem _ h1)
        · intro y hy
          rcases List.mem_cons.mp hy with h1 | h1
          · rw [h1]
            exact le_trans (hinit b1 rfl) (le_of_not_lt hcmp)
          · exact hall y h1
        · intro a ha
          rw [← Option.some.inj ha]
          exact hinit b1 rfl

/-- Claim C7, amended: when `getNearestPoint` returns a point, that
point is one of the candidates it inspects — the three indices
`round(mouseX / STEP_X) ± 1` of each series — and its Euclidean
distance to the mouse is minimal among those inspected candidates
(squared distances compare identically).  Points at other indices are
never examined, so the result need not be the globally nearest drawn
point. -/
theorem getNearestPoint_min_among_candidates (smooth : Bool) (minVal maxVal : ℚ)
    (seriesData : List (List ℚ)) (mouseX mouseY : ℚ) (b : Best)
    (h : getNearestPoint smooth minVal maxVal seriesData mouseX mouseY = some b) :
    b ∈ allCandidates smooth minVal maxVal seriesData mouseX mouseY ∧
    ∀ x ∈ allCandidates smooth minVal maxVal seriesData mouseX mouseY,
      b.dist2 ≤ x.dist2 := by
  rw [getNearestPoint_eq_foldMin] at h
  obtain ⟨hmem, hall, _⟩ := foldl_stepBest_spec _ none b h
  rcases hmem with h1 | h1
  · cases h1
  · exact ⟨h1, hall⟩

/-- Concrete evaluation of `getNearestPoint`: one series whose first
value is at the top of the range and the rest at the bottom, mouse at
`(100, 0)`.  Only indices 4 and 5 are inspected; index 5 wins with
squared distance 360000. -/
theorem getNearestPoint_eval_concrete :
    getNearestPoint false 0 600 [[600, 0, 0, 0, 0, 0]] 100 0
      = some ⟨360000, 0, 0, 100, 600, 0, 5⟩ := by
  have hpts : getSeriesDrawPoints false 0 600 [600, 0, 0, 0, 0, 0]
      = [⟨0, 0, 600⟩, ⟨20, 600, 0⟩, ⟨40, 600, 0⟩, ⟨60, 600, 0⟩, ⟨80, 600, 0⟩,
         ⟨100, 600, 0⟩] := by
    norm_num [getSeriesDrawPoints, List.enum, List.enumFrom, normalizeToCanvas, clamp,
      HEIGHT, STEP_X, min_def, max_def]
  have hg4 : (([⟨0, 0, 600⟩, ⟨20, 600, 0⟩, ⟨40, 600, 0⟩, ⟨60, 600, 0⟩, ⟨80, 600, 0⟩,
      ⟨100, 600, 0⟩] : List DrawPoint)[(4 : ℕ)]) = ⟨80, 600, 0⟩ := rfl
  have hg5 : (([⟨0, 0, 600⟩, ⟨20, 600, 0⟩, ⟨40, 600, 0⟩, ⟨60, 600, 0⟩, ⟨80, 600, 0⟩,
      ⟨100, 600, 0⟩] : List DrawPoint)[(5 : ℕ)]) = ⟨100, 600, 0⟩ := rfl
  have hv4 : (([600, 0, 0, 0, 0, 0] : List ℚ)[(4 : ℕ)]) = 0 := rfl
  have hv5 : (([600, 0, 0, 0, 0, 0] : List ℚ)[(5 : ℕ)]) = 0 := rfl
  norm_num [getNearestPoint, List.enum, List.enumFrom, considerCandidate, pointDist2,
    hpts, STEP_X, round_eq, hg4, hg5, hv4, hv5,
    show (Int.toNat 4) = 4 from rfl, show (Int.toNat 5) = 5 from rfl,
    show (([⟨0, 0, 600⟩, ⟨20, 600, 0⟩, ⟨40, 600, 0⟩, ⟨60, 600, 0⟩, ⟨80, 600, 0⟩,
      ⟨100, 600, 0⟩] : List DrawPoint).getD 4 ⟨0, 0, 0⟩) = ⟨80, 600, 0⟩ from rfl,
    show (([⟨0, 0, 600⟩, ⟨20, 600, 0⟩, ⟨40, 600, 0⟩, ⟨60, 600, 0⟩, ⟨80, 600, 0⟩,
      ⟨100, 600, 0⟩] : List DrawPoint).getD 5 ⟨0, 0, 0⟩) = ⟨100, 600, 0⟩ from rfl,
    show (([600, 0, 0, 0, 0, 0] : List ℚ).getD 4 0) = 0 from rfl,
    show (([600, 0, 0, 0, 0, 0] : List ℚ).getD 5 0) = 0 from rfl]

/-- Claim C7 fails as stated: at this input `getNearestPoint` returns
the point at index 5 with squared distance 360000, while the drawn
point at index 0 of the same series has squared distance 10000 < 360000
(the real distances compare the same way, 100 < 600).  The nearer point
is simply never inspected. -/
theorem getNearestPoint_not_global_nearest :
    getNearestPoint false 0 600 [[600, 0, 0, 0, 0, 0]] 100 0
      = some ⟨360000, 0, 0, 100, 600, 0, 5⟩ ∧
    (⟨0, 0, 600⟩ : DrawPoint) ∈ getSeriesDrawPoints false 0 600 [600, 0, 0, 0, 0, 0] ∧
    pointDist2 100 0 ⟨0, 0, 600⟩ = 10000 ∧
    (10000 : ℚ) < 360000 := by
  refine ⟨getNearestPoint_eval_concrete, ?_, ?_, by norm_num⟩
  · have hpts : getSeriesDrawPoints false 0 600 [600, 0, 0, 0, 0, 0]
        = [⟨0, 0, 600⟩, ⟨20, 600, 0⟩, ⟨40, 600, 0⟩, ⟨60, 600, 0⟩, ⟨80, 600, 0⟩,
           ⟨100, 600, 0⟩] := by
      norm_num [getSeriesDrawPoints, List.enum, List.enumFrom, normalizeToCanvas, clamp,
        HEIGHT, STEP_X, min_def, max_def]
    rw [hpts]
    simp
  · norm_num [pointDist2]

/-- Closed instance of `getNearestPoint_min_among_candidates` at the
concrete input of the counterexample. -/
theorem getNearestPoint_min_among_candidates_witness :
    (⟨360000, 0, 0, 100, 600, 0, 5⟩ : Best)
        ∈ allCandidates false 0 600 [[600, 0, 0, 0, 0, 0]] 100 0 ∧
    ∀ x ∈ allCandidates false 0 600 [[600, 0, 0, 0, 0, 0]] 100 0,
      (⟨360000, 0, 0, 100, 600, 0, 5⟩ : Best).dist2 ≤ x.dist2 :=
  getNearestPoint_min_among_candidates false 0 600 [[600, 0, 0, 0, 0, 0]] 100 0
    ⟨360000, 0, 0, 100, 600, 0, 5⟩ getNearestPoint_eval_concrete

/-- Closed instance of `movingAverage_props`: the identity case at
window 1 and the bounds case at window 3 on the singleton list. -/
theorem movingAverage_props_witness :
    movingAverage [1, 3, 2] 1 = [1, 3, 2] ∧
    (∀ y ∈ movingAverage [2] 3, 2 ≤ y ∧ y ≤ 2) :=
  ⟨(movingAverage_props [1, 3, 2] 1).2.1 (by norm_num),
   (movingAverage_props [2] 3).2.2 2 2 (List.minimum_singleton 2)
     (List.maximum_singleton 2)⟩
